import Mathlib

/-!
# Verification of the veil IAM trust-relationship auditor

A shallow embedding, in Lean 4, of the core of the veil tool: a Go program
that enumerates AWS IAM roles, decodes each role's URL-percent-encoded JSON
trust document, aggregates the principal identifiers named by each document,
and inverts the role-to-principals map into a principal-to-roles map.

The embedding mirrors the Go source:

* Go slices of strings (which distinguish a nil slice from an empty one) are
  modelled as values of type (Option (List String)); a Go map is modelled as
  an association list whose iteration order is the list order (the properties
  proved below are insensitive to that order, matching Go's unspecified map
  iteration order).
* Fallible Go functions returning (T, error) are modelled as functions into
  (T x Option String), keeping the Go convention that the error slot is none
  on success.
* Calls into the Go standard library (encoding/json, net/url, sort) are
  modelled by executable Lean functions that reproduce the stdlib behaviour
  on the inputs the program feeds them; the modelling restrictions (no JSON
  string escapes, integer-only JSON numbers, byte-level URL decoding of
  ASCII text) are noted at each definition.
-/

/-! ## JSON values

A model of the JSON values handled by Go's encoding/json on the shapes this
program decodes.  Numbers are modelled as integers (the trust documents the
program decodes never carry fractional numbers; a number of any shape is a
decode failure for every field of the trust document).  Object fields are
kept in source order. -/

inductive Jval where
  | null : Jval
  | bool (b : Bool) : Jval
  | num (n : Int) : Jval
  | str (s : String) : Jval
  | arr (elems : List Jval) : Jval
  | obj (fields : List (String × Jval)) : Jval

/-- JSON insignificant whitespace, the set skipped by Go's JSON scanner. -/
def isJsonWS (c : Char) : Bool :=
  c = ' ' || c = '\t' || c = '\n' || c = '\r'

/-- Skip insignificant whitespace. -/
def skipWS (s : List Char) : List Char :=
  s.dropWhile isJsonWS

/-- Scan the body of a JSON string after the opening quote, up to the closing
quote.  Models Go's string scanning restricted to escape-free strings (the
program's inputs never use escapes); a backslash is rejected. -/
def scanString : List Char → Except String (List Char × List Char)
  | [] => .error "unexpected end of JSON input"
  | c :: rest =>
    if c = '"' then .ok ([], rest)
    else if c = '\\' then .error "string escapes are not modelled"
    else (scanString rest).map (fun p => (c :: p.1, p.2))

/-- Scan a run of decimal digits, most significant first, onto acc. -/
def scanNat : List Char → Nat → Nat × List Char
  | [], acc => (acc, [])
  | c :: rest, acc =>
    if c.isDigit then scanNat rest (10 * acc + (c.toNat - 48))
    else (acc, c :: rest)

mutual

/-- Parse one JSON value from the input, returning it with the unconsumed
remainder.  Fuel bounds the recursion; the top-level entry point supplies
more fuel than the input length, which is always sufficient because every
recursive call follows the consumption of at least one input character. -/
def parseVal : Nat → List Char → Except String (Jval × List Char)
  | 0, _ => .error "JSON value nesting exceeds input length"
  | fuel + 1, s =>
    match skipWS s with
    | [] => .error "unexpected end of JSON input"
    | c :: rest =>
      if c = '"' then
        (scanString rest).map (fun p => (.str (String.mk p.1), p.2))
      else if c = '{' then
        parseObjFields fuel rest
      else if c = '[' then
        parseArrElems fuel rest
      else if c = 'n' then
        match rest with
        | 'u' :: 'l' :: 'l' :: r => .ok (.null, r)
        | _ => .error "invalid literal"
      else if c = 't' then
        match rest with
        | 'r' :: 'u' :: 'e' :: r => .ok (.bool true, r)
        | _ => .error "invalid literal"
      else if c = 'f' then
        match rest with
        | 'a' :: 'l' :: 's' :: 'e' :: r => .ok (.bool false, r)
        | _ => .error "invalid literal"
      else if c = '-' then
        match rest with
        | d :: r =>
          if d.isDigit then
            let p := scanNat r (d.toNat - 48)
            .ok (.num (-(p.1 : Int)), p.2)
          else .error "invalid number"
        | [] => .error "invalid number"
      else if c.isDigit then
        let p := scanNat rest (c.toNat - 48)
        .ok (.num (p.1 : Int), p.2)
      else .error "invalid character looking for beginning of value"

/-- Parse the elements of a JSON array, the opening bracket already
consumed.  Handles the empty array; otherwise parses the first element and
delegates to parseArrRest. -/
def parseArrElems : Nat → List Char → Except String (Jval × List Char)
  | 0, _ => .error "JSON value nesting exceeds input length"
  | fuel + 1, s =>
    match skipWS s with
    | ']' :: rest => .ok (.arr [], rest)
    | s' => do
      let (v, r) ← parseVal fuel s'
      let (vs, r2) ← parseArrRest fuel r
      .ok (.arr (v :: vs), r2)

/-- Parse the continuation of a JSON array after a completed element: either
the closing bracket or a comma followed by further elements (a trailing
comma is rejected, as in Go). -/
def parseArrRest : Nat → List Char → Except String (List Jval × List Char)
  | 0, _ => .error "JSON value nesting exceeds input length"
  | fuel + 1, s =>
    match skipWS s with
    | ']' :: rest => .ok ([], rest)
    | ',' :: rest => do
      let (v, r) ← parseVal fuel rest
      let (vs, r2) ← parseArrRest fuel r
      .ok (v :: vs, r2)
    | _ => .error "invalid character after array element"

/-- Parse the fields of a JSON object, the opening brace already consumed. -/
def parseObjFields : Nat → List Char → Except String (Jval × List Char)
  | 0, _ => .error "JSON value nesting exceeds input length"
  | fuel + 1, s =>
    match skipWS s with
    | '}' :: rest => .ok (.obj [], rest)
    | '"' :: rest => do
      let (k, r) ← scanString rest
      match skipWS r with
      | ':' :: r2 => do
        let (v, r3) ← parseVal fuel r2
        let (fs, r4) ← parseObjRest fuel r3
        .ok (.obj ((String.mk k, v) :: fs), r4)
      | _ => .error "invalid character after object key"
    | _ => .error "invalid character looking for beginning of object key"

/-- Parse the continuation of a JSON object after a completed field. -/
def parseObjRest : Nat → List Char → Except String (List (String × Jval) × List Char)
  | 0, _ => .error "JSON value nesting exceeds input length"
  | fuel + 1, s =>
    match skipWS s with
    | '}' :: rest => .ok ([], rest)
    | ',' :: rest =>
      match skipWS rest with
      | '"' :: r => do
        let (k, r2) ← scanString r
        match skipWS r2 with
        | ':' :: r3 => do
          let (v, r4) ← parseVal fuel r3
          let (fs, r5) ← parseObjRest fuel r4
          .ok ((String.mk k, v) :: fs, r5)
        | _ => .error "invalid character after object key"
      | _ => .error "invalid character looking for beginning of object key"
    | _ => .error "invalid character after object field"

end

/-- Parse a complete JSON document: one value followed only by whitespace,
as Go's json.Unmarshal requires. -/
def parseJson (data : List Char) : Except String Jval := do
  let (v, rest) ← parseVal (data.length + 1) data
  match skipWS rest with
  | [] => .ok v
  | _ => .error "invalid character after top-level value"

/-! ## The trust-document data model

Mirrors the Go structs.  Go's Items type is a slice of strings ([]string);
a Go slice distinguishes nil from empty, so Items is modelled as an optional
list, none standing for the nil slice. -/

/-- Go: type Items []string (nil slice modelled as none). -/
def Items := Option (List String)
  deriving DecidableEq, Inhabited

/-- The empty, non-nil slice. -/
def Items.emptySlice : Items := some []

/-- Reading a Go string slice appends nothing when nil. -/
def Items.toList : Items → List String
  | none => []
  | some l => l

/-- Go: the Principal struct, five categories of principals. -/
structure Principal where
  Service : Items
  AWS : Items
  Federated : Items
  CanonicalUser : Items
  Anonymous : Items
  deriving DecidableEq

/-- The Go zero value of Principal (all slices nil). -/
instance : Inhabited Principal := ⟨⟨none, none, none, none, none⟩⟩

/-- Go: the Statement struct. -/
structure Statement where
  Effect : String
  Principal : Principal
  Action : Items
  deriving DecidableEq

/-- The Go zero value of Statement. -/
instance : Inhabited Statement := ⟨⟨"", default, none⟩⟩

/-- Go: the TrustPolicy struct.  The Statement field is a slice of
statements, nil-vs-empty again modelled by Option. -/
structure TrustPolicy where
  Version : String
  Statement : Option (List Statement)
  deriving DecidableEq

/-- The Go zero value of TrustPolicy (TrustPolicy{}). -/
instance : Inhabited TrustPolicy := ⟨⟨"", none⟩⟩

/-! ## Decoding the structs from JSON values

Models Go's encoding/json field decoding on the shapes above.  Field lookup
takes the last occurrence of a duplicated key, as encoding/json does; absent
fields keep the zero value; a JSON null decodes into any struct or slice
field as a no-op. -/

/-- ASCII lower-casing of one character, the fold used by bytes.EqualFold
on ASCII input. -/
def foldLower (c : Char) : Char :=
  if 'A' ≤ c ∧ c ≤ 'Z' then Char.ofNat (c.toNat + 32) else c

/-- Go bytes.EqualFold restricted to ASCII: equal length and pairwise
case-insensitive equality. -/
def bytesEqualFold : List Char → List Char → Bool
  | [], [] => true
  | a :: as, b :: bs => foldLower a = foldLower b && bytesEqualFold as bs
  | _, _ => false

/-- Last-occurrence field lookup, as in Go's object decoding: an incoming
key is matched against the field name case-insensitively (Go prefers an
exact match, but each key here folds to at most one field of these structs,
so exact-first and fold-only matching coincide); a duplicated key's last
occurrence wins. -/
def objGet (fields : List (String × Jval)) (key : String) : Option Jval :=
  fields.foldl (fun acc f => if bytesEqualFold f.1.toList key.toList then some f.2 else acc) none

/-- The flexible decode rule of Items, at the level of parsed JSON values:
null gives the nil slice, a string gives a one-element slice, an array may
contain strings and nulls (Go's null-is-no-op rule leaves a null element at
the zero value, the empty string), anything else is a decode error.  This
is the JSON-value-level counterpart of Items.UnmarshalJSON below;
encoding/json hands that method the raw bytes of the field value, whose
parse is exactly the Jval matched here. -/
def Items.ofJval : Jval → Except String Items
  | .null => .ok none
  | .str s => .ok (some [s])
  | .arr es => do
    let xs ← es.mapM (fun e =>
      match e with
      | .str s => .ok s
      | .null => .ok ""
      | _ => .error "failed to parse raw message: not a string or array")
    .ok (some xs)
  | _ => .error "failed to parse raw message: not a string or array"

/-- Decode an optional object field of type Items (absent gives the nil
slice, i.e. the zero value). -/
def itemsField (fields : List (String × Jval)) (key : String) : Except String Items :=
  match objGet fields key with
  | none => .ok none
  | some v => Items.ofJval v

/-- Decode an optional object field of type string (absent or null keeps
the zero value ""). -/
def stringField (fields : List (String × Jval)) (key : String) : Except String String :=
  match objGet fields key with
  | none => .ok ""
  | some .null => .ok ""
  | some (.str s) => .ok s
  | some _ => .error "cannot unmarshal value into field of type string"

/-- Decode a Principal from a JSON value. -/
def Principal.ofJval : Jval → Except String Principal
  | .null => .ok default
  | .obj fields => do
    let service ← itemsField fields "Service"
    let aws ← itemsField fields "AWS"
    let federated ← itemsField fields "Federated"
    let canonicalUser ← itemsField fields "CanonicalUser"
    let anonymous ← itemsField fields "*"
    .ok ⟨service, aws, federated, canonicalUser, anonymous⟩
  | _ => .error "cannot unmarshal value into Principal"

/-- Decode a Statement from a JSON value. -/
def Statement.ofJval : Jval → Except String Statement
  | .null => .ok default
  | .obj fields => do
    let effect ← stringField fields "Effect"
    let principal ←
      match objGet fields "Principal" with
      | none => .ok default
      | some v => Principal.ofJval v
    let action ← itemsField fields "Action"
    .ok ⟨effect, principal, action⟩
  | _ => .error "cannot unmarshal value into Statement"

/-- Decode a TrustPolicy from a JSON value. -/
def TrustPolicy.ofJval : Jval → Except String TrustPolicy
  | .null => .ok default
  | .obj fields => do
    let version ← stringField fields "Version"
    let statement ←
      match objGet fields "Statement" with
      | none => .ok none
      | some .null => .ok none
      | some (.arr es) => do
        let sts ← es.mapM Statement.ofJval
        .ok (some sts)
      | some _ => .error "cannot unmarshal value into field Statement"
    .ok ⟨version, statement⟩
  | _ => .error "cannot unmarshal value into TrustPolicy"

/-- Go's json.Unmarshal([]byte(data), &policy) for a TrustPolicy: parse the
bytes as one JSON document and decode the struct. -/
def jsonUnmarshalTrustPolicy (data : List Char) : Except String TrustPolicy :=
  parseJson data >>= TrustPolicy.ofJval

/-! ## Items.UnmarshalJSON, at the byte level

The Go method receives the raw bytes of the JSON value.  Its two special
cases (empty input, and a whitespace-trimmed case-insensitive null literal)
look at the bytes directly, before any JSON parsing; they are modelled on
the character list.  bytes.TrimSpace is modelled on its ASCII whitespace
set (the program's inputs carry no non-ASCII whitespace), and
bytes.EqualFold on ASCII case folding, which is exact for the null
literal's letters. -/

/-- The ASCII whitespace set of Go's bytes.TrimSpace fast path. -/
def isGoSpace (c : Char) : Bool :=
  c = ' ' || c = '\t' || c = '\n' || c = '\x0b' || c = '\x0c' || c = '\r'

/-- Go bytes.TrimSpace: drop leading and trailing whitespace. -/
def bytesTrimSpace (s : List Char) : List Char :=
  ((s.dropWhile isGoSpace).reverse.dropWhile isGoSpace).reverse

/-- The guard on the second special case of Items.UnmarshalJSON: the input,
whitespace-trimmed, is four bytes long and case-insensitively equal to
null. -/
def isNullBytes (data : List Char) : Bool :=
  let trimmed := bytesTrimSpace data
  trimmed.length = 4 && bytesEqualFold trimmed ['n', 'u', 'l', 'l']

/-- Go json.Unmarshal(data, &single) for a string target: the parsed value
must be a JSON string.  (A JSON null would also be accepted by Go as a
no-op, but Items.UnmarshalJSON only reaches this attempt on inputs whose
trimmed bytes are not a null literal, and no such input parses to null.) -/
def goUnmarshalString (data : List Char) : Except String String :=
  match parseJson data with
  | .ok (.str s) => .ok s
  | .ok _ => .error "cannot unmarshal value into Go value of type string"
  | .error e => .error e

/-- Decoding one array element into a Go string: a JSON string gives
itself, and a JSON null is a no-op that leaves the element at its zero
value, the empty string (encoding/json: unmarshaling a null into a
non-nullable Go type has no effect and produces no error); anything else
is a decode failure. -/
def extractStr : Jval → Except String String
  | .str s => .ok s
  | .null => .ok ""
  | _ => .error "cannot unmarshal value into Go value of type string"

/-- Go json.Unmarshal(data, &many) for a []string target: the parsed value
must be an array whose elements are all JSON strings or nulls (a null
element stays the empty string).  (A top-level null, which Go would treat
as a no-op leaving the slice nil, never reaches this attempt: the null
guard of Items.UnmarshalJSON catches every input that parses to null.) -/
def goUnmarshalStringList (data : List Char) : Except String (List String) :=
  match parseJson data with
  | .ok (.arr es) => es.mapM extractStr
  | .ok _ => .error "cannot unmarshal value into Go value of type []string"
  | .error e => .error e

/-- Go: func (i *Items) UnmarshalJSON(data []byte) error.  Empty input and a
trimmed case-insensitive null both give the nil slice with no error; then a
decode as a single string is attempted, then as a string array; if both
fail the method fails. -/
def Items.unmarshalJSON (data : List Char) : Except String Items :=
  if data.length = 0 then .ok none
  else if isNullBytes data then .ok none
  else
    match goUnmarshalString data with
    | .ok single => .ok (some [single])
    | .error _ =>
      match goUnmarshalStringList data with
      | .ok many => .ok (some many)
      | .error e => .error ("failed to parse raw message: not a string or array " ++ e)

/-! ## uniqSlice and the principal aggregation -/

/-- The byte/lexicographic comparison used by Go's sort.Strings, computed
character by character (on UTF-8 text, byte order and codepoint order
agree). -/
def charListLe : List Char → List Char → Bool
  | [], _ => true
  | _ :: _, [] => false
  | a :: as, b :: bs =>
    if a < b then true
    else if b < a then false
    else charListLe as bs

/-- The string order of sort.Strings, as a decidable relation. -/
def strLeProp (a b : String) : Prop := charListLe a.toList b.toList = true

instance : DecidableRel strLeProp := fun _ _ => Bool.decEq _ _

/-- The computed comparison agrees with the lexicographic order on the
underlying character lists. -/
theorem charListLe_iff_not_lex :
    ∀ as bs : List Char, charListLe as bs = true ↔ ¬ List.Lex (· < ·) bs as
  | [], bs => iff_of_true rfl (fun h => nomatch h)
  | x :: xs, [] => by
    simp only [charListLe]
    exact iff_of_false (by simp) (fun h => h List.Lex.nil)
  | x :: xs, y :: ys => by
    rcases lt_trichotomy x y with h | h | h
    · refine iff_of_true (by simp [charListLe, h]) ?_
      intro hlex
      cases hlex with
      | cons h2 => exact lt_irrefl x h
      | rel h2 => exact lt_asymm h h2
    · subst h
      have ih := charListLe_iff_not_lex xs ys
      simp only [charListLe, lt_irrefl, if_false]
      constructor
      · intro h1 hlex
        cases hlex with
        | cons h2 => exact (ih.mp h1) h2
        | rel h2 => exact lt_irrefl x h2
      · intro h1
        exact ih.mpr (fun h2 => h1 (List.Lex.cons h2))
    · refine iff_of_false (by simp [charListLe, h, lt_asymm h]) ?_
      intro h1
      exact h1 (List.Lex.rel h)

/-- The string order of sort.Strings is the ambient string order. -/
theorem strLeProp_iff (a b : String) : strLeProp a b ↔ a ≤ b := by
  rw [String.le_iff_toList_le, ← not_lt]
  exact charListLe_iff_not_lex a.toList b.toList

instance : IsTotal String strLeProp :=
  ⟨fun a b => (le_total a b).imp (strLeProp_iff a b).mpr (strLeProp_iff b a).mpr⟩

instance : IsTrans String strLeProp :=
  ⟨fun a b c hab hbc => (strLeProp_iff a c).mpr
    (le_trans ((strLeProp_iff a b).mp hab) ((strLeProp_iff b c).mp hbc))⟩

/-- Go: uniqSlice collects the input's elements into a map (dropping
duplicates), copies the keys out, and sorts them with sort.Strings.  The
map's iteration order is unspecified but irrelevant: after sorting, the
result is the ascending list of the input's distinct elements.  Modelled as
dedup followed by a sort under the sort.Strings order. -/
def uniqSlice (input : List String) : List String :=
  List.insertionSort strLeProp input.dedup

/-- Go: (p *Principal) getAll, the concatenation of the five categories
(nil slices contribute nothing), deduplicated and sorted. -/
def Principal.getAll (p : Principal) : List String :=
  uniqSlice (p.Service.toList ++ p.AWS.toList ++ p.Federated.toList ++
    p.CanonicalUser.toList ++ p.Anonymous.toList)

/-- Go: (p *TrustPolicy) getAllPrincipals, the per-statement principals
appended in statement order, deduplicated and sorted.  A nil statement
slice iterates as empty. -/
def TrustPolicy.getAllPrincipals (p : TrustPolicy) : List String :=
  uniqSlice ((p.Statement.getD []).flatMap (fun st => st.Principal.getAll))

/-! ## URL unescaping and decodeRoleTrust -/

/-- Hex digit value, as in net/url. -/
def unhex (c : Char) : Option Nat :=
  if '0' ≤ c ∧ c ≤ '9' then some (c.toNat - 48)
  else if 'a' ≤ c ∧ c ≤ 'f' then some (c.toNat - 87)
  else if 'A' ≤ c ∧ c ≤ 'F' then some (c.toNat - 55)
  else none

/-- Go net/url.QueryUnescape: percent-escapes become the escaped byte, plus
becomes space, every other byte is copied; a percent sign not followed by
two hex digits is an error and no partial result is produced.  Modelled
byte-for-byte on ASCII text (multi-byte UTF-8 escapes, which the program's
inputs do not use, are out of the model). -/
def queryUnescape : List Char → Except String (List Char)
  | [] => .ok []
  | '%' :: rest =>
    match rest with
    | c1 :: c2 :: rest2 =>
      match unhex c1, unhex c2 with
      | some h1, some h2 => (queryUnescape rest2).map (fun t => Char.ofNat (16 * h1 + h2) :: t)
      | _, _ => .error "invalid URL escape"
    | _ => .error "invalid URL escape"
  | '+' :: rest => (queryUnescape rest).map (fun t => ' ' :: t)
  | c :: rest => (queryUnescape rest).map (fun t => c :: t)

/-- The part of an IAM role record the core reads: the ARN and the raw,
URL-percent-encoded trust document.  (The Go code dereferences both pointer
fields unconditionally, so both are modelled as required.) -/
structure Role where
  arn : String
  assumeRolePolicyDocument : String
  deriving DecidableEq

/-- Go: decodeRoleTrust.  URL-unescape the raw document, then unmarshal the
JSON into a TrustPolicy; on either failure return the zero-value policy
with the wrapped error. -/
def decodeRoleTrust (role : Role) : TrustPolicy × Option String :=
  match queryUnescape role.assumeRolePolicyDocument.toList with
  | .error e => (default, some ("failed to unescape URL: " ++ e))
  | .ok data =>
    match jsonUnmarshalTrustPolicy data with
    | .error e => (default, some ("failed to unmarshal JSON: " ++ e))
    | .ok policy => (policy, none)

/-! ## mapFlip -/

/-- One Go map write output[principal] = append(output[principal], role):
append to the entry if the key exists, otherwise create the key (a fresh
key's position in the association list stands for its insertion point; the
properties proved about the flipped map do not depend on it). -/
def appendEntry (out : List (String × List String)) (key val : String) :
    List (String × List String) :=
  match out with
  | [] => [(key, [val])]
  | (k, vs) :: rest =>
    if k = key then (k, vs ++ [val]) :: rest
    else (k, vs) :: appendEntry rest key val

/-- The inner loop of mapFlip: record one role against each of its
principals, in list order. -/
def addRole (out : List (String × List String)) (role : String) :
    List String → List (String × List String)
  | [] => out
  | p :: ps => addRole (appendEntry out p role) role ps

/-- Go: mapFlip, iterating the input map's entries (association-list order
standing for Go's unspecified map iteration order) and appending each
entry's key under each of its principals. -/
def mapFlip (input : List (String × List String)) : List (String × List String) :=
  input.foldl (fun out e => addRole out e.1 e.2) []

/-- Reading a Go map of slices at a key: the entry's slice, or nil (which
iterates and appends as empty) when absent. -/
def lookupList : List (String × List String) → String → List String
  | [], _ => []
  | e :: rest, key => if e.1 = key then e.2 else lookupList rest key

/-! ## The resolver: getRolesWithTrust

The Go function drives a paginator (strictly sequential NextPage calls) and
launches one errgroup goroutine per role.  Each goroutine checks the group
context at entry, decodes its role's trust document, and writes the role's
aggregated principals into the shared map under a mutex; group.Wait joins
every goroutine and yields the first error.

The embedding is sequential.  The paging collaborator is the list of
NextPage results; the caller's context is a flag saying whether it is
already cancelled (the only context state the entry-point check can
observe in this model).  Goroutine results are joined in launch order, so
the first error observed is the first failing unit in that order; which of
several racing errors wins in Go is timing-dependent, and every property
proved below is insensitive to that choice.

The function also returns the list of orchestration events of the run, in
program order: one pageFetch per NextPage call, one launch per goroutine
started (group.Go), and one waitAll when (and only when) group.Wait is
reached.  The trace records which control-flow path the run took; it is
needed because the code's early return on a page-fetch error skips
group.Wait. -/

/-- One result of the paging collaborator's NextPage. -/
def PageResult := Except String (List Role)

/-- The role-to-principals map (Go map modelled as an association list in
insertion order). -/
def RoleTrustMap := List (String × List String)
  deriving DecidableEq, Inhabited

/-- Orchestration events, in program order. -/
inductive OrchEvent where
  | pageFetch : OrchEvent
  | launch (arn : String) : OrchEvent
  | waitAll : OrchEvent
  deriving DecidableEq

/-- The body of one errgroup goroutine: the cooperative cancellation check
at entry, then decode, then the map write (represented by returning the
entry to insert). -/
def runUnit (ctxDone : Bool) (role : Role) : Except String (String × List String) :=
  if ctxDone then .error "context canceled"
  else
    match decodeRoleTrust role with
    | (_, some e) => .error ("failed to decode role trust policy: " ++ e)
    | (policy, none) => .ok (role.arn, policy.getAllPrincipals)

/-- group.Wait: join the launched units in launch order; the first error
wins, otherwise all entries land in the shared map. -/
def joinUnits (ctxDone : Bool) : List Role → Except String RoleTrustMap
  | [] => .ok []
  | r :: rs =>
    match runUnit ctxDone r with
    | .error e => .error e
    | .ok entry => (joinUnits ctxDone rs).map (fun m => entry :: m)

/-- The pagination loop of getRolesWithTrust: fetch each page in turn,
launching one unit per role of each fetched page; a failed fetch returns
the wrapped error immediately — before group.Wait.  When the pages are
exhausted, join every launched unit and either return the first unit error
(map slot nil) or the populated map. -/
def resolverLoop (ctxDone : Bool) :
    List PageResult → List OrchEvent → List Role →
    List OrchEvent × (Option RoleTrustMap × Option String)
  | [], evs, launched =>
    match joinUnits ctxDone launched with
    | .error e =>
      (evs ++ [.waitAll], (none, some ("failed to process IAM roles trust policies: " ++ e)))
    | .ok m => (evs ++ [.waitAll], (some m, none))
  | page :: rest, evs, launched =>
    match page with
    | .error e => (evs ++ [.pageFetch], (none, some ("failed to list roles: " ++ e)))
    | .ok roles =>
      resolverLoop ctxDone rest
        (evs ++ .pageFetch :: roles.map (fun r => .launch r.arn))
        (launched ++ roles)

/-- Go: (a *App) getRolesWithTrust, returning the run's event trace
alongside the (map, error) pair of the Go signature. -/
def getRolesWithTrust (ctxDone : Bool) (pages : List PageResult) :
    List OrchEvent × (Option RoleTrustMap × Option String) :=
  resolverLoop ctxDone pages [] []

/-! ## runScanIAM and the JSON serialization of the final map

Go's json.MarshalIndent(v, "", "  ") on a map[string][]string renders the
object with its keys in ascending byte order, each value array in slice
order, and two-space indentation per nesting level.  The renderer below
reproduces that byte-for-byte for escape-free strings (the marshaller's
escaping of quotes, backslashes, control bytes and of the characters <, >,
and ampersand is not modelled; role ARNs and principal identifiers use none
of them). -/

/-- The key order on map entries used when marshalling. -/
def entryLe (a b : String × List String) : Prop := strLeProp a.1 b.1

instance : DecidableRel entryLe := fun _ _ => Bool.decEq _ _

instance : IsTotal (String × List String) entryLe :=
  ⟨fun a b => IsTotal.total (r := strLeProp) a.1 b.1⟩

instance : IsTrans (String × List String) entryLe :=
  ⟨fun _ _ _ hab hbc => IsTrans.trans (r := strLeProp) _ _ _ hab hbc⟩

/-- Sort the map's entries by key, ascending, as Go's map marshalling
does. -/
def sortByKey (m : List (String × List String)) : List (String × List String) :=
  List.insertionSort entryLe m

/-- Render one key/array entry at the top indentation level. -/
def marshalEntry (e : String × List String) : String :=
  "  \"" ++ e.1 ++ "\": " ++
    (match e.2 with
     | [] => "[]"
     | rs => "[\n" ++ String.intercalate ",\n" (rs.map (fun r => "    \"" ++ r ++ "\"")) ++ "\n  ]")

/-- Go json.MarshalIndent(m, "", "  ") for a map of string slices. -/
def goMarshalIndentMap (m : List (String × List String)) : String :=
  match sortByKey m with
  | [] => "\x7b\x7d"
  | entries => "\x7b\n" ++ String.intercalate ",\n" (entries.map marshalEntry) ++ "\n\x7d"

/-- Go: (a *App) runScanIAM: resolve, flip, marshal; a resolver error is
wrapped and returned with no output bytes. -/
def runScanIAM (ctxDone : Bool) (pages : List PageResult) : Option String × Option String :=
  match (getRolesWithTrust ctxDone pages).2 with
  | (_, some e) => (none, some ("failed to fetch IAM roles: " ++ e))
  | (output, none) => (some (goMarshalIndentMap (mapFlip (output.getD []))), none)

/-! ## Lemmas about uniqSlice -/

/-- uniqSlice sorts ascending. -/
theorem uniqSlice_sorted (l : List String) : (uniqSlice l).Pairwise (· ≤ ·) :=
  (List.sorted_insertionSort strLeProp l.dedup).imp (fun h => (strLeProp_iff _ _).mp h)

/-- uniqSlice drops every duplicate. -/
theorem uniqSlice_nodup (l : List String) : (uniqSlice l).Nodup :=
  (List.perm_insertionSort strLeProp l.dedup).nodup_iff.mpr l.nodup_dedup

/-- uniqSlice keeps exactly the input's elements. -/
theorem mem_uniqSlice {a : String} {l : List String} : a ∈ uniqSlice l ↔ a ∈ l := by
  unfold uniqSlice
  rw [List.mem_insertionSort, List.mem_dedup]

/-- The raw concatenation of the five principal categories of one
statement, before any deduplication or sorting. -/
def Statement.namedPrincipals (st : Statement) : List String :=
  st.Principal.Service.toList ++ st.Principal.AWS.toList ++ st.Principal.Federated.toList ++
    st.Principal.CanonicalUser.toList ++ st.Principal.Anonymous.toList

/-- C3: for every TrustPolicy, getAllPrincipals is sorted ascending in the
byte/lexicographic string order, contains no duplicates, holds exactly the
identifiers named across all statements and all five principal categories
(global deduplication), and for a policy with zero statements it is the
empty (still concrete, never absent) list. -/
theorem getAllPrincipals_sorted_nodup_complete (p : TrustPolicy) :
    p.getAllPrincipals.Pairwise (· ≤ ·) ∧
    p.getAllPrincipals.Nodup ∧
    (∀ x, x ∈ p.getAllPrincipals ↔
      ∃ st ∈ p.Statement.getD [], x ∈ st.namedPrincipals) ∧
    (p.Statement.getD [] = [] → p.getAllPrincipals = []) := by
  refine ⟨uniqSlice_sorted _, uniqSlice_nodup _, fun x => ?_, fun h => ?_⟩
  · rw [TrustPolicy.getAllPrincipals, mem_uniqSlice, List.mem_flatMap]
    constructor
    · rintro ⟨st, hst, hx⟩
      refine ⟨st, hst, ?_⟩
      rw [Principal.getAll, mem_uniqSlice] at hx
      simpa [Statement.namedPrincipals] using hx
    · rintro ⟨st, hst, hx⟩
      refine ⟨st, hst, ?_⟩
      rw [Principal.getAll, mem_uniqSlice]
      simpa [Statement.namedPrincipals] using hx
  · rw [TrustPolicy.getAllPrincipals, h]
    simp [uniqSlice]

/-- Witness for C3 at a concrete zero-statement policy. -/
theorem getAllPrincipals_sorted_nodup_complete_witness :
    TrustPolicy.getAllPrincipals ⟨"", none⟩ = [] :=
  (getAllPrincipals_sorted_nodup_complete ⟨"", none⟩).2.2.2 rfl

/-- C10: Items.UnmarshalJSON matches the null literal case-insensitively:
every four-byte case variant of null decodes to the absent (nil) slice with
no error, although none of the mixed-case variants is legal JSON. -/
theorem items_unmarshal_null_fold (c1 c2 c3 c4 : Char)
    (h1 : c1 = 'n' ∨ c1 = 'N') (h2 : c2 = 'u' ∨ c2 = 'U')
    (h3 : c3 = 'l' ∨ c3 = 'L') (h4 : c4 = 'l' ∨ c4 = 'L') :
    Items.unmarshalJSON [c1, c2, c3, c4] = .ok none := by
  rcases h1 with rfl | rfl <;> rcases h2 with rfl | rfl <;>
    rcases h3 with rfl | rfl <;> rcases h4 with rfl | rfl <;> rfl

/-- Witness for C10 at the all-uppercase variant. -/
theorem items_unmarshal_null_fold_witness :
    Items.unmarshalJSON ['N', 'U', 'L', 'L'] = .ok none :=
  items_unmarshal_null_fold 'N' 'U' 'L' 'L' (Or.inr rfl) (Or.inr rfl) (Or.inr rfl) (Or.inr rfl)

/-- C4: decodeRoleTrust returns a policy with no error or an error with the
zero-value policy, never both; it fails exactly when URL-unescaping fails
or the unescaped text fails to unmarshal into the TrustPolicy shape; and
the document consisting of an empty JSON object succeeds, yielding the
policy with empty version and no statements. -/
theorem decodeRoleTrust_spec :
    (∀ role : Role, (decodeRoleTrust role).2.isSome → (decodeRoleTrust role).1 = default) ∧
    (∀ role : Role, (decodeRoleTrust role).2.isSome ↔
      ((∃ e, queryUnescape role.assumeRolePolicyDocument.toList = .error e) ∨
       (∃ data e, queryUnescape role.assumeRolePolicyDocument.toList = .ok data ∧
         jsonUnmarshalTrustPolicy data = .error e))) ∧
    (∀ a, decodeRoleTrust ⟨a, "\x7b\x7d"⟩ = (⟨"", none⟩, none)) := by
  refine ⟨fun role => ?_, fun role => ?_, fun a => ?_⟩
  · unfold decodeRoleTrust
    rcases hq : queryUnescape role.assumeRolePolicyDocument.toList with e | data
    · simp
    · rcases hj : jsonUnmarshalTrustPolicy data with e | policy <;> simp [hj]
  · unfold decodeRoleTrust
    rcases hq : queryUnescape role.assumeRolePolicyDocument.toList with e | data
    · simp
    · rcases hj : jsonUnmarshalTrustPolicy data with e | policy <;> simp [hj]
  · rfl

/-- Witness for C4: a non-decodable document yields the zero policy, and
the empty object document yields the empty policy. -/
theorem decodeRoleTrust_spec_witness :
    (decodeRoleTrust ⟨"r", "test"⟩).1 = default ∧
    decodeRoleTrust ⟨"r", "\x7b\x7d"⟩ = (⟨"", none⟩, none) :=
  ⟨decodeRoleTrust_spec.1 ⟨"r", "test"⟩ (by rfl), decodeRoleTrust_spec.2.2 "r"⟩

/-! ## Lemmas about the resolver -/

/-- The roles delivered by a sequence of successful pages, in page order. -/
def pagesRoles : List PageResult → List Role
  | [] => []
  | p :: rest =>
    match p with
    | .ok rs => rs ++ pagesRoles rest
    | .error _ => pagesRoles rest

/-- The fetch/launch events produced while consuming successful pages. -/
def pagesTrace : List PageResult → List OrchEvent
  | [] => []
  | p :: rest =>
    match p with
    | .ok rs => .pageFetch :: rs.map (fun r => .launch r.arn) ++ pagesTrace rest
    | .error _ => [.pageFetch]

/-- Package a join result the way getRolesWithTrust returns it. -/
def joinOutcome : Except String RoleTrustMap → Option RoleTrustMap × Option String
  | .error e => (none, some ("failed to process IAM roles trust policies: " ++ e))
  | .ok m => (some m, none)

/-- A run whose pages all fetch successfully launches one unit per role,
reaches group.Wait, and returns the join outcome of all launched units. -/
theorem resolverLoop_ok_pages (ctx : Bool) :
    ∀ (pages : List PageResult), (∀ p ∈ pages, ∃ rs, p = .ok rs) →
    ∀ (evs : List OrchEvent) (launched : List Role),
    resolverLoop ctx pages evs launched =
      (evs ++ pagesTrace pages ++ [.waitAll],
        joinOutcome (joinUnits ctx (launched ++ pagesRoles pages)))
  | [], _, evs, launched => by
    simp only [resolverLoop, pagesTrace, pagesRoles, List.append_nil]
    rcases h : joinUnits ctx launched with e | m <;> simp [joinOutcome]
  | page :: rest, h, evs, launched => by
    rcases h page (List.mem_cons_self page rest) with ⟨rs, rfl⟩
    have ih := resolverLoop_ok_pages ctx rest
      (fun p hp => h p (List.mem_cons_of_mem _ hp)) (evs ++ .pageFetch :: rs.map (fun r => .launch r.arn))
      (launched ++ rs)
    simp only [resolverLoop] at ih ⊢
    rw [ih]
    simp [pagesTrace, pagesRoles]

/-- A run that hits a failed page fetch after a prefix of successful pages
returns the wrapped fetch error, with no map, immediately: the trace stops
at the failed fetch and no join event occurs. -/
theorem resolverLoop_page_error (ctx : Bool) :
    ∀ (pages1 : List PageResult), (∀ p ∈ pages1, ∃ rs, p = .ok rs) →
    ∀ (e : String) (pages2 : List PageResult) (evs : List OrchEvent) (launched : List Role),
    resolverLoop ctx (pages1 ++ .error e :: pages2) evs launched =
      (evs ++ pagesTrace pages1 ++ [.pageFetch],
        (none, some ("failed to list roles: " ++ e)))
  | [], _, e, pages2, evs, launched => by
    simp [resolverLoop, pagesTrace]
  | page :: rest, h, e, pages2, evs, launched => by
    rcases h page (List.mem_cons_self page rest) with ⟨rs, rfl⟩
    have ih := resolverLoop_page_error ctx rest
      (fun p hp => h p (List.mem_cons_of_mem _ hp)) e pages2
      (evs ++ .pageFetch :: rs.map (fun r => .launch r.arn)) (launched ++ rs)
    simp only [resolverLoop, List.cons_append, List.append_eq] at ih ⊢
    rw [ih]
    simp [pagesTrace]

/-- group.Wait surfaces the first failing unit's error (in launch order). -/
theorem joinUnits_first_error :
    ∀ (roles : List Role) (r : Role) (e : String),
    roles.find? (fun r => (decodeRoleTrust r).2.isSome) = some r →
    (decodeRoleTrust r).2 = some e →
    joinUnits false roles = .error ("failed to decode role trust policy: " ++ e)
  | [], r, e, hfind, _ => by simp at hfind
  | r0 :: rs, r, e, hfind, he => by
    rw [List.find?_cons] at hfind
    by_cases h0 : (decodeRoleTrust r0).2.isSome
    · rw [h0] at hfind
      obtain rfl : r0 = r := by simpa using hfind
      rcases hd : decodeRoleTrust r0 with ⟨p, o⟩
      rw [hd] at he
      simp only at he
      subst he
      simp [joinUnits, runUnit, hd]
    · rw [Bool.not_eq_true] at h0
      rw [h0] at hfind
      simp only at hfind
      have ih := joinUnits_first_error rs r e hfind he
      rcases hd : decodeRoleTrust r0 with ⟨p, o⟩
      rw [hd] at h0
      rcases o with _ | e0
      · simp [joinUnits, runUnit, hd, ih, Except.map]
      · simp at h0

/-- Pages that each carry zero roles contribute no roles. -/
theorem pagesRoles_nil_of_empty :
    ∀ (pages : List PageResult), (∀ p ∈ pages, p = .ok []) → pagesRoles pages = []
  | [], _ => rfl
  | p :: rest, h => by
    rw [h p (List.mem_cons_self p rest)]
    show ([] ++ pagesRoles rest : List Role) = []
    rw [List.nil_append]
    exact pagesRoles_nil_of_empty rest (fun q hq => h q (List.mem_cons_of_mem _ hq))

/-- Each successfully fetched page contributes exactly one fetch event. -/
theorem pagesTrace_count_fetch :
    ∀ (pages : List PageResult), (∀ p ∈ pages, ∃ rs, p = .ok rs) →
    (pagesTrace pages).count .pageFetch = pages.length
  | [], _ => rfl
  | p :: rest, h => by
    rcases h p (List.mem_cons_self p rest) with ⟨rs, rfl⟩
    have ih := pagesTrace_count_fetch rest (fun q hq => h q (List.mem_cons_of_mem _ hq))
    simp only [pagesTrace, List.count_cons, List.count_append, ih, List.length_cons]
    have hz : (rs.map (fun r => OrchEvent.launch r.arn)).count .pageFetch = 0 := by
      rw [List.count_eq_zero]
      simp
    rw [hz]
    simp [Nat.add_comm]

/-- The pagination phase never emits the join event. -/
theorem waitAll_not_mem_pagesTrace : ∀ (pages : List PageResult),
    OrchEvent.waitAll ∉ pagesTrace pages
  | [] => by simp [pagesTrace]
  | p :: rest => by
    have ih := waitAll_not_mem_pagesTrace rest
    rcases p with e | rs
    · simp [pagesTrace]
    · simp only [pagesTrace]
      simp_all

/-- C1: the resolver is all-or-nothing.  Whenever the pages all fetch
successfully but some role's trust document fails to decode, the resolver
returns the first failing unit's wrapped error together with the nil
(absent) map: the caller never sees a partially populated RoleTrustMap. -/
theorem resolver_all_or_nothing (pages : List PageResult)
    (hok : ∀ p ∈ pages, ∃ rs, p = .ok rs) (r : Role) (e : String)
    (hfind : (pagesRoles pages).find? (fun r => (decodeRoleTrust r).2.isSome) = some r)
    (he : (decodeRoleTrust r).2 = some e) :
    (getRolesWithTrust false pages).2 =
      (none, some ("failed to process IAM roles trust policies: " ++
        ("failed to decode role trust policy: " ++ e))) := by
  unfold getRolesWithTrust
  rw [resolverLoop_ok_pages false pages hok [] []]
  simp only [List.nil_append]
  rw [joinUnits_first_error (pagesRoles pages) r e hfind he]
  rfl

/-- Witness for C1: one malformed role makes the whole run fail with no
map. -/
theorem resolver_all_or_nothing_witness :
    (getRolesWithTrust false [.ok [⟨"arn:bad", "test%2x"⟩]]).2 =
      (none, some ("failed to process IAM roles trust policies: " ++
        ("failed to decode role trust policy: " ++
          ("failed to unescape URL: " ++ "invalid URL escape")))) :=
  resolver_all_or_nothing [.ok [⟨"arn:bad", "test%2x"⟩]]
    (fun p hp => ⟨[⟨"arn:bad", "test%2x"⟩], by simpa using hp⟩)
    ⟨"arn:bad", "test%2x"⟩ ("failed to unescape URL: " ++ "invalid URL escape")
    (by rfl) (by rfl)

/-- C6: a run whose paging collaborator yields zero roles and no page error
returns the empty, non-absent RoleTrustMap and no error. -/
theorem resolver_zero_roles (ctx : Bool) (pages : List PageResult)
    (h : ∀ p ∈ pages, p = .ok []) :
    (getRolesWithTrust ctx pages).2 = (some [], none) := by
  unfold getRolesWithTrust
  rw [resolverLoop_ok_pages ctx pages (fun p hp => ⟨[], h p hp⟩) [] []]
  rw [List.nil_append, pagesRoles_nil_of_empty pages h]
  rfl

/-- Witness for C6 at one empty page. -/
theorem resolver_zero_roles_witness :
    (getRolesWithTrust false [.ok []]).2 = (some [], none) :=
  resolver_zero_roles false [.ok []] (fun p hp => by simpa using hp)

/-- C7: a failed page fetch aborts enumeration immediately — exactly the
successful prefix plus the failing call are fetched, no further page is
requested — and is surfaced as the wrapped fetch error with no data: the
caller receives neither role records nor map content from pages already
retrieved. -/
theorem resolver_page_fetch_abort (ctx : Bool) (pages1 : List PageResult)
    (hok : ∀ p ∈ pages1, ∃ rs, p = .ok rs) (e : String) (pages2 : List PageResult) :
    (getRolesWithTrust ctx (pages1 ++ .error e :: pages2)).2 =
      (none, some ("failed to list roles: " ++ e)) ∧
    (getRolesWithTrust ctx (pages1 ++ .error e :: pages2)).1.count .pageFetch =
      pages1.length + 1 := by
  unfold getRolesWithTrust
  rw [resolverLoop_page_error ctx pages1 hok e pages2 [] []]
  refine ⟨rfl, ?_⟩
  rw [List.nil_append, List.count_append, pagesTrace_count_fetch pages1 hok]
  rfl

/-- Witness for C7: a role-carrying page followed by a failing fetch. -/
theorem resolver_page_fetch_abort_witness :
    (getRolesWithTrust false ([.ok [⟨"r1", "\x7b\x7d"⟩]] ++ .error "test error" :: [])).2 =
      (none, some ("failed to list roles: " ++ "test error")) ∧
    (getRolesWithTrust false ([.ok [⟨"r1", "\x7b\x7d"⟩]] ++ .error "test error" :: [])).1.count
      .pageFetch = 1 + 1 :=
  resolver_page_fetch_abort false [.ok [⟨"r1", "\x7b\x7d"⟩]]
    (fun p hp => ⟨[⟨"r1", "\x7b\x7d"⟩], by simpa using hp⟩) "test error" []

/-- C8 counterexample: a run whose second page fetch fails after a unit was
already launched from the first page returns (at the early return of the
page-fetch error path) without ever reaching group.Wait: the trace holds a
launch event but no join event, so the launched unit is not waited for
before the resolver returns. -/
theorem resolver_abandons_unit_cex :
    OrchEvent.launch "arn1" ∈ (getRolesWithTrust false [.ok [⟨"arn1", "\x7b\x7d"⟩], .error "x"]).1 ∧
    OrchEvent.waitAll ∉ (getRolesWithTrust false [.ok [⟨"arn1", "\x7b\x7d"⟩], .error "x"]).1 ∧
    (getRolesWithTrust false [.ok [⟨"arn1", "\x7b\x7d"⟩], .error "x"]).2 =
      (none, some ("failed to list roles: " ++ "x")) := by
  refine ⟨by decide, by decide, rfl⟩

/-- C8 amended: on every run whose page fetches all succeed the resolver
reaches group.Wait (the join barrier is the trace's final event), so every
launched unit is joined before the resolver returns; but on the path where
a page fetch fails, the resolver returns at once and never reaches
group.Wait, abandoning any units launched from earlier pages. -/
theorem resolver_wait_behaviour :
    (∀ (ctx : Bool) (pages : List PageResult), (∀ p ∈ pages, ∃ rs, p = .ok rs) →
      (getRolesWithTrust ctx pages).1.getLast? = some .waitAll) ∧
    (∀ (ctx : Bool) (pages1 : List PageResult), (∀ p ∈ pages1, ∃ rs, p = .ok rs) →
      ∀ (e : String) (pages2 : List PageResult),
        OrchEvent.waitAll ∉ (getRolesWithTrust ctx (pages1 ++ .error e :: pages2)).1) := by
  constructor
  · intro ctx pages hok
    unfold getRolesWithTrust
    rw [resolverLoop_ok_pages ctx pages hok [] []]
    simp
  · intro ctx pages1 hok e pages2
    unfold getRolesWithTrust
    rw [resolverLoop_page_error ctx pages1 hok e pages2 [] []]
    simp only [List.nil_append]
    intro hmem
    rcases List.mem_append.mp hmem with h1 | h2
    · exact waitAll_not_mem_pagesTrace pages1 h1
    · simp at h2

/-- Witness for the amended C8: an all-successful run ends in the join. -/
theorem resolver_wait_behaviour_witness :
    (getRolesWithTrust false [.ok []]).1.getLast? = some .waitAll :=
  resolver_wait_behaviour.1 false [.ok []] (fun p hp => ⟨[], by simpa using hp⟩)

/-! ## Lemmas about mapFlip -/

/-- One append touches only its key's entry. -/
theorem lookupList_appendEntry :
    ∀ (out : List (String × List String)) (key val q : String),
    lookupList (appendEntry out key val) q =
      if key = q then lookupList out q ++ [val] else lookupList out q
  | [], key, val, q => by
    by_cases hq : key = q <;> simp [appendEntry, lookupList, hq]
  | (k, vs) :: rest, key, val, q => by
    have ih := lookupList_appendEntry rest key val q
    by_cases hk : k = key
    · subst hk
      by_cases hq : k = q <;> simp [appendEntry, lookupList, hq]
    · by_cases hq : k = q
      · have hqk : ¬ (q = key) := fun h => hk (hq.trans h)
        have hkq : ¬ (key = q) := fun h => hqk h.symm
        simp [appendEntry, hk, lookupList, hq, hqk, hkq]
      · by_cases hkq : key = q
        · subst hkq
          simp [appendEntry, hk, lookupList, hq, ih]
        · simp [appendEntry, hk, lookupList, hq, hkq, ih]

/-- Recording one role under a duplicate-free list of principals appends it
once under each principal in that list. -/
theorem lookupList_addRole :
    ∀ (ps : List String) (out : List (String × List String)) (role q : String),
    ps.Nodup →
    lookupList (addRole out role ps) q =
      lookupList out q ++ (if q ∈ ps then [role] else [])
  | [], out, role, q, _ => by simp [addRole]
  | p :: ps, out, role, q, hnd => by
    have hp : p ∉ ps := (List.nodup_cons.mp hnd).1
    have ih := lookupList_addRole ps (appendEntry out p role) role q (List.nodup_cons.mp hnd).2
    rw [addRole, ih, lookupList_appendEntry]
    by_cases hq : q = p
    · subst hq
      simp [hp]
    · have : ¬ (p = q) := fun h => hq h.symm
      by_cases hqs : q ∈ ps <;> simp [hq, hqs, this]

/-- The flipped map read at q lists, in input order, the keys of the input
entries whose duplicate-free value list holds q. -/
theorem lookupList_mapFlip_foldl :
    ∀ (m : List (String × List String)) (out : List (String × List String)) (q : String),
    (∀ e ∈ m, e.2.Nodup) →
    lookupList (m.foldl (fun out e => addRole out e.1 e.2) out) q =
      lookupList out q ++ m.filterMap (fun e => if q ∈ e.2 then some e.1 else none)
  | [], out, q, _ => by simp
  | e :: rest, out, q, h => by
    have ih := lookupList_mapFlip_foldl rest (addRole out e.1 e.2) q
      (fun x hx => h x (List.mem_cons_of_mem _ hx))
    rw [List.foldl_cons, ih, lookupList_addRole e.2 out e.1 q (h e (List.mem_cons_self e rest))]
    rw [List.filterMap_cons]
    by_cases hq : q ∈ e.2 <;> simp [hq]

/-- With duplicate-free keys, an entry of the map is exactly what lookup
finds at its key. -/
theorem lookupList_eq_of_mem :
    ∀ (m : List (String × List String)), (m.map Prod.fst).Nodup →
    ∀ e ∈ m, lookupList m e.1 = e.2
  | [], _, e, he => by simp at he
  | x :: rest, hnd, e, he => by
    rcases List.mem_cons.mp he with rfl | hmem
    · simp [lookupList]
    · rw [List.map_cons, List.nodup_cons] at hnd
      have hne : ¬ (x.1 = e.1) := fun h => hnd.1 (h ▸ List.mem_map_of_mem Prod.fst hmem)
      have ih := lookupList_eq_of_mem rest hnd.2 e hmem
      simp [lookupList, hne, ih]

/-- A member of a lookup result comes from an entry with that key. -/
theorem mem_lookupList_imp : ∀ (m : List (String × List String)) (r p : String),
    p ∈ lookupList m r → ∃ e ∈ m, e.1 = r ∧ p ∈ e.2
  | [], r, p, h => by simp [lookupList] at h
  | x :: rest, r, p, h => by
    by_cases hx : x.1 = r
    · rw [lookupList, if_pos hx] at h
      exact ⟨x, List.mem_cons_self x rest, hx, h⟩
    · rw [lookupList, if_neg hx] at h
      obtain ⟨e, he, h1, h2⟩ := mem_lookupList_imp rest r p h
      exact ⟨e, List.mem_cons_of_mem _ he, h1, h2⟩

/-- The roles collected for one principal are the keys of the accepting
entries. -/
theorem filterMap_roles_eq (p : String) : ∀ (m : List (String × List String)),
    m.filterMap (fun e => if p ∈ e.2 then some e.1 else none) =
      (m.filter (fun e => p ∈ e.2)).map Prod.fst
  | [] => rfl
  | e :: rest => by
    rw [List.filterMap_cons, List.filter_cons]
    by_cases hp : p ∈ e.2 <;> simp [hp, filterMap_roles_eq p rest]

/-- C5: mapFlip produces the inverse membership relation: a principal p is
recorded under role r exactly when the input maps r to a list containing p;
with duplicate-free inputs a principal listed by N roles carries exactly
those N role ARNs (its role list is duplicate-free); and an input with zero
roles yields the empty (non-absent) map. -/
theorem mapFlip_membership (m : List (String × List String))
    (hkeys : (m.map Prod.fst).Nodup) (hvals : ∀ e ∈ m, e.2.Nodup) :
    (∀ p r, r ∈ lookupList (mapFlip m) p ↔ p ∈ lookupList m r) ∧
    (∀ p, (lookupList (mapFlip m) p).Nodup) ∧
    mapFlip [] = [] := by
  have hflip : ∀ p, lookupList (mapFlip m) p =
      m.filterMap (fun e => if p ∈ e.2 then some e.1 else none) := by
    intro p
    rw [mapFlip, lookupList_mapFlip_foldl m [] p hvals]
    rfl
  refine ⟨fun p r => ?_, fun p => ?_, rfl⟩
  · rw [hflip p]
    constructor
    · intro hr
      obtain ⟨e, he, hf⟩ := List.mem_filterMap.mp hr
      by_cases hp : p ∈ e.2
      · rw [if_pos hp] at hf
        obtain rfl : e.1 = r := by simpa using hf
        rw [lookupList_eq_of_mem m hkeys e he]
        exact hp
      · rw [if_neg hp] at hf
        cases hf
    · intro hp
      obtain ⟨e, he, h1, h2⟩ := mem_lookupList_imp m r p hp
      exact List.mem_filterMap.mpr ⟨e, he, by rw [if_pos h2, h1]⟩
  · rw [hflip p, filterMap_roles_eq p m]
    exact ((List.filter_sublist m).map Prod.fst).nodup hkeys

/-- Witness for C5 on the two-role example of the repository's tests. -/
theorem mapFlip_membership_witness :
    "role1" ∈ lookupList (mapFlip [("role1", ["principal1", "principal2"]),
      ("role2", ["principal1", "principal3"])]) "principal1" :=
  ((mapFlip_membership [("role1", ["principal1", "principal2"]),
      ("role2", ["principal1", "principal3"])] (by decide)
      (by decide)).1 "principal1" "role1").mpr (by decide)

/-! ## The serialization claim -/

/-- C9: on every successful resolution, runScanIAM emits exactly the
indent-marshalled bytes of the flipped map: the object's top-level keys in
ascending order (the sort permutes the flipped entries, changing nothing
else), each principal's role array in the map's insertion order, two-space
indentation per level, as laid down byte-for-byte by goMarshalIndentMap. -/
theorem runScanIAM_serialization (ctxDone : Bool) (pages : List PageResult)
    (m : RoleTrustMap) (h : (getRolesWithTrust ctxDone pages).2 = (some m, none)) :
    runScanIAM ctxDone pages = (some (goMarshalIndentMap (mapFlip m)), none) ∧
    ((sortByKey (mapFlip m)).map Prod.fst).Pairwise (· ≤ ·) ∧
    (sortByKey (mapFlip m)).Perm (mapFlip m) := by
  refine ⟨?_, ?_, List.perm_insertionSort entryLe (mapFlip m)⟩
  · unfold runScanIAM
    rw [h]
    rfl
  · rw [List.pairwise_map]
    exact (List.sorted_insertionSort entryLe (mapFlip m)).imp
      (fun hab => (strLeProp_iff _ _).mp hab)

/-- Witness for C9: one role trusting one service principal serializes to
the exact pretty-printed bytes. -/
theorem runScanIAM_serialization_witness :
    runScanIAM false
      [.ok [⟨"r1", "\x7b\"Statement\":[\x7b\"Principal\":\x7b\"Service\":\"s.com\"\x7d\x7d]\x7d"⟩]] =
      (some (goMarshalIndentMap (mapFlip [("r1", ["s.com"])])), none) ∧
    goMarshalIndentMap (mapFlip [("r1", ["s.com"])]) =
      "\x7b\n  \"s.com\": [\n    \"r1\"\n  ]\n\x7d" :=
  ⟨(runScanIAM_serialization false
      [.ok [⟨"r1", "\x7b\"Statement\":[\x7b\"Principal\":\x7b\"Service\":\"s.com\"\x7d\x7d]\x7d"⟩]]
      [("r1", ["s.com"])] (by rfl)).1, by rfl⟩

/-! ## Round-trip lemmas for the flexible decode rule -/

/-- Rendering of an escape-free JSON string literal. -/
def renderJsonString (s : List Char) : List Char := '"' :: s ++ ['"']

/-- Rendering of the continuation of a string-array literal after one
element. -/
def renderArrTail : List (List Char) → List Char
  | [] => [']']
  | x :: xs => ',' :: renderJsonString x ++ renderArrTail xs

/-- Rendering of a string-array literal after the opening bracket. -/
def renderArrInner : List (List Char) → List Char
  | [] => [']']
  | x :: xs => renderJsonString x ++ renderArrTail xs

/-- Rendering of a JSON array of escape-free string literals. -/
def renderJsonStringArray (xs : List (List Char)) : List Char :=
  '[' :: renderArrInner xs

/-- Whitespace skipping stops at a non-whitespace head. -/
theorem skipWS_cons_of_not (c : Char) (s : List Char) (h : isJsonWS c = false) :
    skipWS (c :: s) = c :: s := by
  simp [skipWS, List.dropWhile_cons, h]

/-- Specializations at the concrete delimiters, for rewriting. -/
theorem skipWS_quote (s : List Char) : skipWS ('"' :: s) = '"' :: s :=
  skipWS_cons_of_not '"' s rfl

/-- Whitespace skipping stops at a comma. -/
theorem skipWS_comma (s : List Char) : skipWS (',' :: s) = ',' :: s :=
  skipWS_cons_of_not ',' s rfl

/-- Whitespace skipping stops at a closing bracket. -/
theorem skipWS_rbrack (s : List Char) : skipWS (']' :: s) = ']' :: s :=
  skipWS_cons_of_not ']' s rfl

/-- Whitespace skipping stops at an opening bracket. -/
theorem skipWS_lbrack (s : List Char) : skipWS ('[' :: s) = '[' :: s :=
  skipWS_cons_of_not '[' s rfl

/-- Binding a successful Except value applies the continuation. -/
theorem exceptBind_ok {α β : Type} (a : α) (f : α → Except String β) :
    (Except.ok a >>= f) = f a := rfl

/-- Scanning an escape-free string body stops at the closing quote. -/
theorem scanString_plain :
    ∀ (s rest : List Char), (∀ c ∈ s, c ≠ '"' ∧ c ≠ '\\') →
    scanString (s ++ '"' :: rest) = .ok (s, rest)
  | [], rest, _ => by simp [scanString]
  | c :: s, rest, h => by
    have hc := h c (List.mem_cons_self c s)
    have ih := scanString_plain s rest (fun x hx => h x (List.mem_cons_of_mem _ hx))
    simp [scanString, hc.1, hc.2, ih, Except.map]

/-- The parser accepts a rendered escape-free string at any fuel. -/
theorem parseVal_string (fuel : Nat) (s rest : List Char)
    (h : ∀ c ∈ s, c ≠ '"' ∧ c ≠ '\\') :
    parseVal (fuel + 1) ('"' :: (s ++ '"' :: rest)) = .ok (.str (String.mk s), rest) := by
  rw [parseVal, skipWS_quote]
  simp [scanString_plain s rest h, Except.map]

/-- The parser accepts a rendered array continuation, given fuel beyond the
number of remaining elements. -/
theorem parseArrRest_render :
    ∀ (xs : List (List Char)) (fuel : Nat) (rest : List Char),
    (∀ x ∈ xs, ∀ c ∈ x, c ≠ '"' ∧ c ≠ '\\') → xs.length + 1 ≤ fuel →
    parseArrRest fuel (renderArrTail xs ++ rest) =
      .ok (xs.map (fun x => Jval.str (String.mk x)), rest)
  | [], fuel, rest, _, hf => by
    obtain ⟨f, rfl⟩ : ∃ f, fuel = f + 1 := ⟨fuel - 1, by omega⟩
    rw [renderArrTail, List.cons_append, List.nil_append, parseArrRest, skipWS_rbrack]
    rfl
  | x :: xs, fuel, rest, h, hf => by
    simp only [List.length_cons] at hf
    obtain ⟨f, rfl⟩ : ∃ f, fuel = f + 1 := ⟨fuel - 1, by omega⟩
    obtain ⟨f2, rfl⟩ : ∃ f2, f = f2 + 1 := ⟨f - 1, by omega⟩
    have hx := h x (List.mem_cons_self x xs)
    have ih := parseArrRest_render xs (f2 + 1) rest
      (fun y hy => h y (List.mem_cons_of_mem _ hy)) (by omega)
    have hr : renderJsonString x ++ (renderArrTail xs ++ rest) =
        '"' :: (x ++ '"' :: (renderArrTail xs ++ rest)) := by
      simp [renderJsonString]
    rw [renderArrTail]
    simp only [List.cons_append, List.append_assoc]
    rw [parseArrRest, skipWS_comma, hr]
    simp only [parseVal_string f2 x (renderArrTail xs ++ rest) hx, ih, exceptBind_ok,
      List.map_cons]

/-- The parser accepts a rendered array body, given fuel beyond the number
of elements. -/
theorem parseArrElems_render :
    ∀ (xs : List (List Char)) (fuel : Nat) (rest : List Char),
    (∀ x ∈ xs, ∀ c ∈ x, c ≠ '"' ∧ c ≠ '\\') → xs.length + 2 ≤ fuel →
    parseArrElems fuel (renderArrInner xs ++ rest) =
      .ok (.arr (xs.map (fun x => Jval.str (String.mk x))), rest)
  | [], fuel, rest, _, hf => by
    obtain ⟨f, rfl⟩ : ∃ f, fuel = f + 1 := ⟨fuel - 1, by omega⟩
    rw [renderArrInner, List.cons_append, List.nil_append, parseArrElems, skipWS_rbrack]
    rfl
  | x :: xs, fuel, rest, h, hf => by
    simp only [List.length_cons] at hf
    obtain ⟨f, rfl⟩ : ∃ f, fuel = f + 1 := ⟨fuel - 1, by omega⟩
    obtain ⟨f2, rfl⟩ : ∃ f2, f = f2 + 1 := ⟨f - 1, by omega⟩
    have hx := h x (List.mem_cons_self x xs)
    have ih := parseArrRest_render xs (f2 + 1) rest
      (fun y hy => h y (List.mem_cons_of_mem _ hy)) (by omega)
    have hr : renderJsonString x ++ (renderArrTail xs ++ rest) =
        '"' :: (x ++ '"' :: (renderArrTail xs ++ rest)) := by
      simp [renderJsonString]
    rw [renderArrInner]
    simp only [List.append_assoc]
    rw [parseArrElems, hr, skipWS_quote]
    split
    · next heq =>
      simp only [List.cons.injEq] at heq
      exact absurd heq.1 (by decide)
    · simp only [parseVal_string f2 x (renderArrTail xs ++ rest) hx, ih, exceptBind_ok,
        List.map_cons]

/-- Rendered array tails are at least one byte per element plus the
bracket. -/
theorem renderArrTail_length : ∀ xs : List (List Char), xs.length + 1 ≤ (renderArrTail xs).length
  | [] => by simp [renderArrTail]
  | x :: xs => by
    have ih := renderArrTail_length xs
    simp [renderArrTail, renderJsonString]
    omega

/-- Rendered array bodies are at least one byte per element plus the
bracket. -/
theorem renderArrInner_length : ∀ xs : List (List Char), xs.length + 1 ≤ (renderArrInner xs).length
  | [] => by simp [renderArrInner]
  | x :: xs => by
    have ih := renderArrTail_length xs
    simp [renderArrInner, renderJsonString]
    omega

/-- A whole rendered string parses to the string value. -/
theorem parseJson_renderString (s : List Char) (h : ∀ c ∈ s, c ≠ '"' ∧ c ≠ '\\') :
    parseJson (renderJsonString s) = .ok (.str (String.mk s)) := by
  unfold parseJson
  have hlen : (renderJsonString s).length = s.length + 2 := by simp [renderJsonString]
  have hshape : renderJsonString s = '"' :: (s ++ '"' :: []) := by simp [renderJsonString]
  rw [hlen, hshape, parseVal_string (s.length + 2) s [] h]
  rfl

/-- A whole rendered string array parses to the array of string values. -/
theorem parseJson_renderArray (xs : List (List Char))
    (h : ∀ x ∈ xs, ∀ c ∈ x, c ≠ '"' ∧ c ≠ '\\') :
    parseJson (renderJsonStringArray xs) =
      .ok (.arr (xs.map (fun x => Jval.str (String.mk x)))) := by
  have hge : xs.length + 2 ≤ (renderArrInner xs).length + 1 := by
    have := renderArrInner_length xs
    omega
  have harr := parseArrElems_render xs ((renderArrInner xs).length + 1) [] h hge
  rw [List.append_nil] at harr
  unfold parseJson
  rw [show renderJsonStringArray xs = '[' :: renderArrInner xs from rfl]
  rw [show ('[' :: renderArrInner xs).length + 1 = ((renderArrInner xs).length + 1) + 1 by
    simp]
  rw [parseVal, skipWS_lbrack]
  simp [harr, exceptBind_ok, skipWS]

/-- Trimming keeps a list with non-whitespace first and last bytes. -/
theorem bytesTrimSpace_keep (c d : Char) (s : List Char)
    (hc : isGoSpace c = false) (hd : isGoSpace d = false) :
    bytesTrimSpace (c :: (s ++ [d])) = c :: (s ++ [d]) := by
  unfold bytesTrimSpace
  rw [List.dropWhile_cons, hc]
  simp only [Bool.false_eq_true, if_false]
  rw [show (c :: (s ++ [d])).reverse = d :: (s.reverse ++ [c]) by simp]
  rw [List.dropWhile_cons, hd]
  simp

/-- The trimmed null test fails on input whose first byte does not fold to
the letter n, provided the first and last bytes are not whitespace. -/
theorem isNullBytes_of_ends (c d : Char) (s : List Char)
    (hc : isGoSpace c = false) (hd : isGoSpace d = false)
    (hn : foldLower c ≠ 'n') :
    isNullBytes (c :: (s ++ [d])) = false := by
  unfold isNullBytes
  rw [bytesTrimSpace_keep c d s hc hd]
  have hfold : bytesEqualFold (c :: (s ++ [d])) ['n', 'u', 'l', 'l'] = false := by
    rw [bytesEqualFold]
    simp [show foldLower 'n' = 'n' from by decide, hn]
  simp [hfold]

/-- Both renderings trim to themselves and fail the null test. -/
theorem isNullBytes_renderString (s : List Char) :
    isNullBytes (renderJsonString s) = false :=
  isNullBytes_of_ends '"' '"' s rfl rfl (by decide)

/-- A rendered array tail ends with the closing bracket. -/
theorem renderArrTail_ends : ∀ xs : List (List Char), ∃ mid, renderArrTail xs = mid ++ [']']
  | [] => ⟨[], rfl⟩
  | x :: xs => by
    obtain ⟨mid, hm⟩ := renderArrTail_ends xs
    exact ⟨',' :: renderJsonString x ++ mid, by simp [renderArrTail, hm]⟩

/-- A rendered array body ends with the closing bracket. -/
theorem renderArrInner_ends : ∀ xs : List (List Char), ∃ mid, renderArrInner xs = mid ++ [']']
  | [] => ⟨[], rfl⟩
  | x :: xs => by
    obtain ⟨mid, hm⟩ := renderArrTail_ends xs
    exact ⟨renderJsonString x ++ mid, by simp [renderArrInner, hm]⟩

/-- A rendered string array fails the null test. -/
theorem isNullBytes_renderArray (xs : List (List Char)) :
    isNullBytes (renderJsonStringArray xs) = false := by
  obtain ⟨mid, hm⟩ := renderArrInner_ends xs
  rw [show renderJsonStringArray xs = '[' :: renderArrInner xs from rfl, hm]
  exact isNullBytes_of_ends '[' ']' mid rfl rfl (by decide)

/-- Binding a failed Except value keeps the error. -/
theorem exceptBind_error {α β : Type} (e : String) (f : α → Except String β) :
    ((Except.error e : Except String α) >>= f) = .error e := rfl

/-- Extracting a list of rendered string values succeeds elementwise. -/
theorem mapM_extractStr_map :
    ∀ xs : List (List Char),
    (xs.map (fun x => Jval.str (String.mk x))).mapM extractStr = .ok (xs.map String.mk)
  | [] => rfl
  | x :: xs => by
    have ih := mapM_extractStr_map xs
    simp only [List.map_cons, List.mapM_cons, ih]
    rfl

/-- goUnmarshalString accepts a rendered string. -/
theorem goUnmarshalString_renderString (s : List Char) (h : ∀ c ∈ s, c ≠ '"' ∧ c ≠ '\\') :
    goUnmarshalString (renderJsonString s) = .ok (String.mk s) := by
  unfold goUnmarshalString
  rw [parseJson_renderString s h]

/-- The string attempt comes first: whatever the bytes are, if they
unmarshal as a single JSON string then Items.UnmarshalJSON returns the
one-element slice, never consulting the array attempt. -/
theorem items_unmarshal_string_first (data : List Char) (s : String)
    (hnull : isNullBytes data = false) (hgo : goUnmarshalString data = .ok s) :
    Items.unmarshalJSON data = .ok (some [s]) := by
  have hne : data ≠ [] := by
    intro hd
    subst hd
    rw [show goUnmarshalString ([] : List Char) =
      .error "unexpected end of JSON input" from rfl] at hgo
    exact Except.noConfusion hgo
  unfold Items.unmarshalJSON
  rw [if_neg (by simpa [List.length_eq_zero] using hne), if_neg (by simp [hnull]), hgo]

/-- A rendered JSON string decodes to the one-element slice. -/
theorem items_unmarshal_renderString (s : List Char) (h : ∀ c ∈ s, c ≠ '"' ∧ c ≠ '\\') :
    Items.unmarshalJSON (renderJsonString s) = .ok (some [String.mk s]) :=
  items_unmarshal_string_first _ _ (isNullBytes_renderString s)
    (goUnmarshalString_renderString s h)

/-- A rendered JSON string array decodes to that sequence of strings. -/
theorem items_unmarshal_renderArray (xs : List (List Char))
    (h : ∀ x ∈ xs, ∀ c ∈ x, c ≠ '"' ∧ c ≠ '\\') :
    Items.unmarshalJSON (renderJsonStringArray xs) = .ok (some (xs.map String.mk)) := by
  have hne : ¬ ((renderJsonStringArray xs).length = 0) := by simp [renderJsonStringArray]
  have hgs : goUnmarshalString (renderJsonStringArray xs) =
      .error "cannot unmarshal value into Go value of type string" := by
    unfold goUnmarshalString
    rw [parseJson_renderArray xs h]
  have hgl : goUnmarshalStringList (renderJsonStringArray xs) = .ok (xs.map String.mk) := by
    unfold goUnmarshalStringList
    rw [parseJson_renderArray xs h]
    exact mapM_extractStr_map xs
  unfold Items.unmarshalJSON
  rw [if_neg hne, if_neg (by simp [isNullBytes_renderArray xs]), hgs, hgl]

/-- Go's reading of one []string element, as a partial value: a string
gives itself, a null leaves the zero value, anything else fails. -/
def Jval.strOrNull : Jval → Option String
  | .str s => some s
  | .null => some ""
  | _ => none

/-- Elementwise extraction succeeds exactly on string-or-null elements,
nulls read as empty strings, and otherwise fails with the element decode
error. -/
theorem mapM_extractStr_eq :
    ∀ es : List Jval,
    es.mapM extractStr =
      match es.mapM Jval.strOrNull with
      | some ss => .ok ss
      | none => .error "cannot unmarshal value into Go value of type string"
  | [] => rfl
  | e :: es => by
    have ih := mapM_extractStr_eq es
    rw [List.mapM_cons, List.mapM_cons]
    cases hm : es.mapM Jval.strOrNull with
    | some ss =>
      rw [hm] at ih
      cases e with
      | str s =>
        rw [show extractStr (Jval.str s) = .ok s from rfl, exceptBind_ok, ih, exceptBind_ok]
        rfl
      | null =>
        rw [show extractStr Jval.null = .ok "" from rfl, exceptBind_ok, ih, exceptBind_ok]
        rfl
      | bool b => rfl
      | num n => rfl
      | arr es2 => rfl
      | obj fs => rfl
    | none =>
      rw [hm] at ih
      cases e with
      | str s =>
        rw [show extractStr (Jval.str s) = .ok s from rfl, exceptBind_ok, ih, exceptBind_error]
        rfl
      | null =>
        rw [show extractStr Jval.null = .ok "" from rfl, exceptBind_ok, ih, exceptBind_error]
        rfl
      | bool b => rfl
      | num n => rfl
      | arr es2 => rfl
      | obj fs => rfl

/-- An array whose elements are all strings or nulls decodes to that
sequence, with each null element read as the empty string. -/
theorem items_unmarshal_array_or_null (data : List Char) (es : List Jval) (ss : List String)
    (hne : data ≠ []) (hnull : isNullBytes data = false)
    (hp : parseJson data = .ok (.arr es)) (hm : es.mapM Jval.strOrNull = some ss) :
    Items.unmarshalJSON data = .ok (some ss) := by
  have hgs : goUnmarshalString data =
      .error "cannot unmarshal value into Go value of type string" := by
    unfold goUnmarshalString
    rw [hp]
  have hgl : goUnmarshalStringList data = .ok ss := by
    unfold goUnmarshalStringList
    rw [hp]
    show es.mapM extractStr = .ok ss
    rw [mapM_extractStr_eq es, hm]
  unfold Items.unmarshalJSON
  rw [if_neg (by simpa [List.length_eq_zero] using hne), if_neg (by simp [hnull]), hgs, hgl]

/-- A parsed value that is neither the null literal nor a string nor an
array of string-or-null elements makes Items.UnmarshalJSON fail with a
decode error. -/
theorem items_unmarshal_otherwise (data : List Char) (v : Jval) (hne : data ≠ [])
    (hnull : isNullBytes data = false) (hp : parseJson data = .ok v)
    (hvn : v ≠ .null) (hvs : ∀ s, v ≠ .str s)
    (hva : ∀ es, v = .arr es → es.mapM Jval.strOrNull = none) :
    ∃ msg, Items.unmarshalJSON data = .error msg := by
  have hgs : ∃ e1, goUnmarshalString data = .error e1 := by
    unfold goUnmarshalString
    rw [hp]
    cases v with
    | str s => exact absurd rfl (hvs s)
    | null => exact ⟨_, rfl⟩
    | bool b => exact ⟨_, rfl⟩
    | num n => exact ⟨_, rfl⟩
    | arr es => exact ⟨_, rfl⟩
    | obj fs => exact ⟨_, rfl⟩
  obtain ⟨e1, hgs⟩ := hgs
  have hgl : ∃ e2, goUnmarshalStringList data = .error e2 := by
    unfold goUnmarshalStringList
    rw [hp]
    cases v with
    | null => exact absurd rfl hvn
    | str s => exact absurd rfl (hvs s)
    | bool b => exact ⟨_, rfl⟩
    | num n => exact ⟨_, rfl⟩
    | obj fs => exact ⟨_, rfl⟩
    | arr es =>
      have hmape : es.mapM extractStr =
          .error "cannot unmarshal value into Go value of type string" := by
        rw [mapM_extractStr_eq es, hva es rfl]
      exact ⟨_, hmape⟩
  obtain ⟨e2, hgl⟩ := hgl
  refine ⟨"failed to parse raw message: not a string or array " ++ e2, ?_⟩
  unfold Items.unmarshalJSON
  rw [if_neg (by simpa [List.length_eq_zero] using hne), if_neg (by simp [hnull]), hgs, hgl]

/-- C2, counterexample to the claim as stated: the document consisting of
a one-element array holding the null literal parses to an array that is
not an array of strings, so the claim's final clause ("otherwise it fails
with a decode error") demands a failure; Items.UnmarshalJSON instead
succeeds with the one-element sequence holding the empty string, because
Go's json null-is-no-op rule leaves the []string element at its zero
value. -/
theorem items_unmarshal_null_element_cex :
    parseJson ['[', 'n', 'u', 'l', 'l', ']'] = .ok (.arr [.null]) ∧
    (∀ ss : List String, Jval.arr [Jval.null] ≠ .arr (ss.map Jval.str)) ∧
    Items.unmarshalJSON ['[', 'n', 'u', 'l', 'l', ']'] = .ok (some [""]) := by
  refine ⟨rfl, ?_, rfl⟩
  intro ss h
  cases ss with
  | nil => simp at h
  | cons a as =>
    simp only [List.map_cons, Jval.arr.injEq, List.cons.injEq] at h
    exact Jval.noConfusion h.1

/-- C2 (amended): Items.UnmarshalJSON follows the flexible decode rule, in
order: empty input or the null literal give the absent (nil) slice with no
error; a JSON string gives the one-element sequence containing it; a JSON
array whose elements are all strings or nulls gives that sequence,
possibly empty, with each null element read as the empty string (so an
array of strings gives exactly that sequence); any other JSON value, such
as a number or an array holding a number, fails with a decode error; and
the string attempt is made before the array attempt: any input that
unmarshals as a single string yields the one-element sequence regardless
of the array attempt. -/
theorem items_unmarshal_flexible_rule :
    (Items.unmarshalJSON [] = .ok none) ∧
    (Items.unmarshalJSON ['n', 'u', 'l', 'l'] = .ok none) ∧
    (∀ s : List Char, (∀ c ∈ s, c ≠ '"' ∧ c ≠ '\\') →
      Items.unmarshalJSON (renderJsonString s) = .ok (some [String.mk s])) ∧
    (∀ xs : List (List Char), (∀ x ∈ xs, ∀ c ∈ x, c ≠ '"' ∧ c ≠ '\\') →
      Items.unmarshalJSON (renderJsonStringArray xs) = .ok (some (xs.map String.mk))) ∧
    (∀ (data : List Char) (s : String), isNullBytes data = false →
      goUnmarshalString data = .ok s → Items.unmarshalJSON data = .ok (some [s])) ∧
    (∀ (data : List Char) (es : List Jval) (ss : List String), data ≠ [] →
      isNullBytes data = false → parseJson data = .ok (.arr es) →
      es.mapM Jval.strOrNull = some ss → Items.unmarshalJSON data = .ok (some ss)) ∧
    (∀ (data : List Char) (v : Jval), data ≠ [] → isNullBytes data = false →
      parseJson data = .ok v → v ≠ .null → (∀ s, v ≠ .str s) →
      (∀ es, v = .arr es → es.mapM Jval.strOrNull = none) →
      ∃ msg, Items.unmarshalJSON data = .error msg) :=
  ⟨rfl, rfl, items_unmarshal_renderString, items_unmarshal_renderArray,
   items_unmarshal_string_first, items_unmarshal_array_or_null, items_unmarshal_otherwise⟩

/-- Witness for C2: a bare string, a two-element array, an array holding a
null, and a number. -/
theorem items_unmarshal_flexible_rule_witness :
    Items.unmarshalJSON (renderJsonString ['x']) = .ok (some [String.mk ['x']]) ∧
    Items.unmarshalJSON (renderJsonStringArray [['x'], ['y']]) =
      .ok (some [String.mk ['x'], String.mk ['y']]) ∧
    Items.unmarshalJSON ['[', 'n', 'u', 'l', 'l', ']'] = .ok (some [""]) ∧
    (∃ msg, Items.unmarshalJSON ['4', '2'] = .error msg) :=
  ⟨items_unmarshal_flexible_rule.2.2.1 ['x'] (by decide),
   items_unmarshal_flexible_rule.2.2.2.1 [['x'], ['y']] (by decide),
   items_unmarshal_flexible_rule.2.2.2.2.2.1 ['[', 'n', 'u', 'l', 'l', ']'] [.null] [""]
     (by decide) (by rfl) (by rfl) (by rfl),
   items_unmarshal_flexible_rule.2.2.2.2.2.2 ['4', '2'] (.num 42) (by decide) (by rfl) (by rfl)
     (fun h => Jval.noConfusion h) (fun s h => Jval.noConfusion h)
     (fun es h => Jval.noConfusion h)⟩
